import Mathlib

/-!
Shallow embedding of the `soa::soa<T>` structure-of-arrays container
(`soa.hpp`).

A record type `T` with `N + 1` fields is modelled by a type family
`α : Fin (N + 1) → Type`; a record value is a dependent function giving the
value of each field.  The container keeps one growable array (`std::vector`,
modelled as `List`) per field; every public operation is translated
field-array by field-array, exactly following the loops the C++ code runs
through `for_each_vector`.  Unchecked element reads (`operator[]` on the
underlying vectors) are modelled with `List.getD`, which is exact for
in-bounds indices, the only ones the C++ code may legally use.
-/

namespace SoaSpec

/-- A record value for a record type with `N + 1` fields of types `α i`
(the aggregate `T` split into its fields by the reflection library). -/
abbrev Rec (N : Nat) (α : Fin (N + 1) → Type) : Type := (i : Fin (N + 1)) → α i

/-- The container: one vector per field of `T`
(member `detail::fields_vector_tuple<T> vectors`). -/
structure Soa (N : Nat) (α : Fin (N + 1) → Type) where
  vectors : (i : Fin (N + 1)) → List (α i)

variable {N : Nat} {α : Fin (N + 1) → Type}

instance [∀ i, DecidableEq (α i)] : DecidableEq (Soa N α) :=
  fun a b =>
    if h : a.vectors = b.vectors then
      Decidable.isTrue (by cases a; cases b; simpa using h)
    else
      Decidable.isFalse (by intro hab; exact h (by cases hab; rfl))

/-- The size of the container: `size()` returns `get_vector<0>().size()`. -/
def Soa.size (s : Soa N α) : Nat := (s.vectors 0).length

/-- The length-lockstep invariant: every field array has length `size()`. -/
def Soa.Invariant (s : Soa N α) : Prop := ∀ i, (s.vectors i).length = s.size

instance (s : Soa N α) : Decidable s.Invariant := by
  unfold Soa.Invariant; infer_instance

/-- The record referenced by the element proxy at `idx`
(`_wrapper::value()`, which rebuilds `T` from `vectors[i][idx]` for every
field `i`).  Out-of-bounds reads are undefined behaviour in the C++ code;
`List.getD` models the in-bounds case exactly. -/
def Soa.value [∀ i, Inhabited (α i)] (s : Soa N α) (idx : Nat) : Rec N α :=
  fun i => (s.vectors i).getD idx default

/-- Proxy assignment `soa[idx] = v` (`_wrapper::operator=`): writes the field `i` of `v` into slot `idx` of field array `i`, for every field. -/
def Soa.setAt (s : Soa N α) (idx : Nat) (v : Rec N α) : Soa N α :=
  ⟨fun i => (s.vectors i).set idx (v i)⟩

/-- Checked access `at(idx)`: throws `std::out_of_range` when
`idx >= size()`, otherwise returns a proxy `(this, idx)`.  The first
component is the container state after the call (`at` never mutates),
the second the thrown-or-returned result. -/
def Soa.atIdx (s : Soa N α) (idx : Nat) : Soa N α × Except String Nat :=
  if idx ≥ s.size then (s, Except.error "Index out of range")
  else (s, Except.ok idx)

/-- Single-element `insert(pos, value)`: every field array does
`vec.insert(vec.begin() + pos, field)`; returns the cursor index `pos`. -/
def Soa.insert1 (s : Soa N α) (pos : Nat) (v : Rec N α) : Soa N α × Nat :=
  (⟨fun i => (s.vectors i).insertIdx pos (v i)⟩, pos)

/-- The loop body of `insert(pos, count, value)`:
`for (i = 0; i < count; ++i) insert(pos + i, value);`. -/
def Soa.insertCountLoop (s : Soa N α) (pos : Nat) (v : Rec N α) (count : Nat) :
    Soa N α :=
  (List.range count).foldl (fun acc i => (acc.insert1 (pos + i) v).1) s

/-- `insert(pos, count, value)`: runs the loop and returns a cursor at
`pos.index`. -/
def Soa.insertCount (s : Soa N α) (pos count : Nat) (v : Rec N α) :
    Soa N α × Nat :=
  (s.insertCountLoop pos v count, pos)

/-- The loop shared by `insert(pos, first, last)` and `insert(pos, ilist)`:
insert each record at `pos`, `pos + 1`, ... in sequence order. -/
def Soa.insertListLoop (s : Soa N α) (pos : Nat) : List (Rec N α) → Soa N α
  | [] => s
  | v :: rest => Soa.insertListLoop ((s.insert1 pos v).1) (pos + 1) rest

/-- Sequence insert `insert(pos, first, last)` / `insert(pos, ilist)`:
runs the loop and returns a cursor at the original `pos`. -/
def Soa.insertList (s : Soa N α) (pos : Nat) (l : List (Rec N α)) :
    Soa N α × Nat :=
  (s.insertListLoop pos l, pos)

/-- `erase(pos)`: every field array does `vec.erase(vec.begin() + pos)`;
returns a cursor at `pos.index`. -/
def Soa.erase1 (s : Soa N α) (pos : Nat) : Soa N α × Nat :=
  (⟨fun i => (s.vectors i).eraseIdx pos⟩, pos)

/-- `erase(first, last)`: every field array erases the index range
`[first, last)`; returns a cursor at `first`. -/
def Soa.eraseRange (s : Soa N α) (first last : Nat) : Soa N α × Nat :=
  (⟨fun i => (s.vectors i).take first ++ (s.vectors i).drop last⟩, first)

/-- `push_back(value)`: every field array appends the corresponding field. -/
def Soa.pushBack (s : Soa N α) (v : Rec N α) : Soa N α :=
  ⟨fun i => s.vectors i ++ [v i]⟩

/-- `pop_back()`: every field array drops its last element. -/
def Soa.popBack (s : Soa N α) : Soa N α :=
  ⟨fun i => (s.vectors i).dropLast⟩

/-- Behaviour of `std::vector::resize(count, value)` on one field array:
truncate when shrinking, append copies of `value` when growing. -/
def resizeList {β : Type} (l : List β) (count : Nat) (v : β) : List β :=
  if count ≤ l.length then l.take count
  else l ++ List.replicate (count - l.length) v

/-- `resize(count, value)`: every field array is resized with the
corresponding field of `value`. -/
def Soa.resize (s : Soa N α) (count : Nat) (v : Rec N α) : Soa N α :=
  ⟨fun i => resizeList (s.vectors i) count (v i)⟩

/-- `resize(count)`: every field array is resized with value-initialized
elements, i.e. the fields of `T{}`. -/
def Soa.resizeD [∀ i, Inhabited (α i)] (s : Soa N α) (count : Nat) : Soa N α :=
  s.resize count (fun _ => default)

/-- `clear()`: every field array is cleared. -/
def Soa.clear (s : Soa N α) : Soa N α :=
  ⟨fun _ => []⟩

/-- `assign(count, value)`: clears, then every field array does
`vec.assign(count, field)`. -/
def Soa.assignCV (s : Soa N α) (count : Nat) (v : Rec N α) : Soa N α :=
  ⟨fun i => List.replicate count (v i)⟩

/-- `assign(first, last)` / `assign(ilist)`: `clear()` then insert the
sequence at `end()` (index 0 of the cleared container). -/
def Soa.assignList (s : Soa N α) (l : List (Rec N α)) : Soa N α :=
  (s.clear.insertList 0 l).1

/-- Default constructor `soa()`: all field arrays empty. -/
def Soa.mkEmpty : Soa N α := ⟨fun _ => []⟩

/-- Constructor `soa(count)`: every field array is assigned `count` copies
of the corresponding field of the value-initialized record `T{}`. -/
def Soa.mkCount [∀ i, Inhabited (α i)] (count : Nat) : Soa N α :=
  ⟨fun _ => List.replicate count default⟩

/-- Constructor `soa(count, value)`. -/
def Soa.mkCountValue (count : Nat) (v : Rec N α) : Soa N α :=
  ⟨fun i => List.replicate count (v i)⟩

/-- Constructors `soa(first, last)` and `soa(ilist)`: insert the sequence
at `end()` of the empty container. -/
def Soa.mkList (l : List (Rec N α)) : Soa N α :=
  ((Soa.mkEmpty : Soa N α).insertList 0 l).1

/-- `a.swap(b)` (`vectors.swap(other.vectors)`): whole-store exchange.
Returns the pair (state of `a` after, state of `b` after). -/
def Soa.swap (a b : Soa N α) : Soa N α × Soa N α := (b, a)

/-- Move construction / move assignment from `a`
(defaulted, so each `std::vector` member is moved, which steals the buffer
and leaves the source vector empty).  Returns the pair
(destination contents, source state after the move). -/
def Soa.moveFrom (a : Soa N α) : Soa N α × Soa N α :=
  (⟨a.vectors⟩, ⟨fun _ => []⟩)

/-- The element proxy `_wrapper`: the parent pointer is modelled by a
numeric identity plus the pointed-to container value (two proxies with the
same `parentId` reference the same live container, hence equal data). -/
structure Wrapper (N : Nat) (α : Fin (N + 1) → Type) where
  parentId : Nat
  parent : Soa N α
  index : Nat

/-- Proxy equality `_wrapper::operator==(const _wrapper&)`,
parameterized by the equality of the record type itself `eqT` (used by the slow
path `value() == other.value()`).  The fast path returns `true` when both
proxies reference the same parent and index, comparing no field data. -/
def Wrapper.beq [∀ i, Inhabited (α i)] (eqT : Rec N α → Rec N α → Bool)
    (w1 w2 : Wrapper N α) : Bool :=
  if w1.parentId = w2.parentId ∧ w1.index = w2.index then true
  else eqT (w1.parent.value w1.index) (w2.parent.value w2.index)

/-- One public mutating operation of the container API, with its
arguments.  Used to state the lockstep invariant over arbitrary operation
sequences. -/
inductive Op (N : Nat) (α : Fin (N + 1) → Type) where
  | assignCV (count : Nat) (v : Rec N α)
  | assignList (l : List (Rec N α))
  | insert1 (pos : Nat) (v : Rec N α)
  | insertCount (pos count : Nat) (v : Rec N α)
  | insertList (pos : Nat) (l : List (Rec N α))
  | erase1 (pos : Nat)
  | eraseRange (first last : Nat)
  | pushBack (v : Rec N α)
  | popBack
  | resize (count : Nat) (v : Rec N α)
  | resizeD (count : Nat)
  | clear
  | swapWith (other : Soa N α)
  | setAt (idx : Nat) (v : Rec N α)

/-- Effect of one public operation on the container state. `swapWith`
leaves this container holding the store of the other container. -/
def Soa.apply [∀ i, Inhabited (α i)] (s : Soa N α) : Op N α → Soa N α
  | .assignCV count v => s.assignCV count v
  | .assignList l => s.assignList l
  | .insert1 pos v => (s.insert1 pos v).1
  | .insertCount pos count v => (s.insertCount pos count v).1
  | .insertList pos l => (s.insertList pos l).1
  | .erase1 pos => (s.erase1 pos).1
  | .eraseRange first last => (s.eraseRange first last).1
  | .pushBack v => s.pushBack v
  | .popBack => s.popBack
  | .resize count v => s.resize count v
  | .resizeD count => s.resizeD count
  | .clear => s.clear
  | .swapWith other => other
  | .setAt idx v => s.setAt idx v

/-- A sequence of public operations applied in program order. -/
def Soa.applyAll [∀ i, Inhabited (α i)] (s : Soa N α) : List (Op N α) → Soa N α
  | [] => s
  | op :: ops => (s.apply op).applyAll ops

/-- Well-formedness of the arguments of an operation: the only operation taking
another container is `swapWith`, and that container (being itself built by
public operations) satisfies the lockstep invariant. -/
def Op.WF : Op N α → Prop
  | .swapWith other => other.Invariant
  | _ => True

instance (op : Op N α) [∀ i, DecidableEq (α i)] : Decidable op.WF := by
  cases op <;> (unfold Op.WF; infer_instance)

/-! ### List-level helper lemmas -/

/-- Inserting at a valid position splices the element into the list. -/
theorem insertIdx_eq_splice {β : Type} (xs : List β) (pos : Nat) (y : β)
    (h : pos ≤ xs.length) :
    xs.insertIdx pos y = xs.take pos ++ y :: xs.drop pos := by
  induction xs generalizing pos with
  | nil =>
    have : pos = 0 := by simpa using h
    subst this
    simp [List.insertIdx]
  | cons x xs ih =>
    cases pos with
    | zero => simp [List.insertIdx_zero]
    | succ p =>
      simp only [List.insertIdx_succ_cons, List.take_succ_cons, List.drop_succ_cons,
        List.cons_append]
      rw [ih p (by simpa using h)]

/-- Length of `insertIdx`, as an unconditional formula. -/
theorem length_insertIdx_formula {β : Type} (xs : List β) (pos : Nat) (y : β) :
    (xs.insertIdx pos y).length = if pos ≤ xs.length then xs.length + 1 else xs.length := by
  by_cases h : pos ≤ xs.length
  · rw [if_pos h, List.length_insertIdx pos xs h]
  · rw [if_neg h, List.insertIdx_of_length_lt xs y pos (by omega)]

/-- Optional lookup into a three-part splice `take pos ++ ys ++ drop pos`. -/
theorem getElem?_splice {β : Type} (xs ys : List β) (pos : Nat)
    (h : pos ≤ xs.length) (n : Nat) :
    (xs.take pos ++ ys ++ xs.drop pos)[n]? =
      if n < pos then xs[n]?
      else if n < pos + ys.length then ys[n - pos]?
      else xs[n - ys.length]? := by
  have hlt : (xs.take pos).length = pos := by
    simp only [List.length_take]
    omega
  rw [List.append_assoc, List.getElem?_append, hlt]
  by_cases h1 : n < pos
  · rw [if_pos h1, if_pos h1, List.getElem?_take, if_pos h1]
  · rw [if_neg h1, if_neg h1, List.getElem?_append]
    by_cases h2 : n < pos + ys.length
    · rw [if_pos (by omega), if_pos (by omega)]
    · rw [if_neg (by omega), if_neg (by omega), List.getElem?_drop]
      congr 1
      omega

/-- The sequential insertion loop on a single list, mirroring
`Soa.insertListLoop` per field array. -/
def listInsertSeq {β : Type} (xs : List β) (pos : Nat) : List β → List β
  | [] => xs
  | y :: ys => listInsertSeq (xs.insertIdx pos y) (pos + 1) ys

/-- Sequentially inserting `ys` at increasing positions starting from a
valid `pos` splices `ys` into the list at `pos`. -/
theorem listInsertSeq_eq_splice {β : Type} (ys : List β) :
    ∀ (xs : List β) (pos : Nat), pos ≤ xs.length →
      listInsertSeq xs pos ys = xs.take pos ++ ys ++ xs.drop pos := by
  induction ys with
  | nil =>
    intro xs pos _
    simp [listInsertSeq]
  | cons y ys ih =>
    intro xs pos h
    rw [listInsertSeq, ih (xs.insertIdx pos y) (pos + 1)
      (by rw [length_insertIdx_formula, if_pos h]; omega)]
    rw [insertIdx_eq_splice xs pos y h]
    have htake : (xs.take pos ++ y :: xs.drop pos).take (pos + 1) = xs.take pos ++ [y] := by
      rw [List.take_append_eq_append_take]
      have hlt : (xs.take pos).length = pos := by
        simp only [List.length_take]; omega
      rw [List.take_of_length_le (by omega), hlt]
      simp
    have hdrop : (xs.take pos ++ y :: xs.drop pos).drop (pos + 1) = xs.drop pos := by
      rw [List.drop_append_eq_append_drop]
      have hlt : (xs.take pos).length = pos := by
        simp only [List.length_take]; omega
      rw [List.drop_of_length_le (by omega), hlt]
      simp
    rw [htake, hdrop]
    simp

/-- Length of the single-list resize. -/
theorem length_resizeList {β : Type} (l : List β) (count : Nat) (v : β) :
    (resizeList l count v).length = count := by
  unfold resizeList
  by_cases h : count ≤ l.length
  · rw [if_pos h]
    simp only [List.length_take]
    omega
  · rw [if_neg h]
    simp only [List.length_append, List.length_replicate]
    omega

/-! ### Invariant preservation -/

/-- If the new length of every field array is the same function of its old
length, the lockstep invariant is preserved. -/
theorem invariant_of_uniform {s t : Soa N α} (g : Nat → Nat) (hs : s.Invariant)
    (h : ∀ i, (t.vectors i).length = g ((s.vectors i).length)) : t.Invariant := by
  intro i
  show (t.vectors i).length = (t.vectors 0).length
  rw [h i, h 0, hs i, hs 0]

/-- Single-element insert preserves the lockstep invariant. -/
theorem insert1_invariant {s : Soa N α} (hs : s.Invariant) (pos : Nat) (v : Rec N α) :
    (s.insert1 pos v).1.Invariant := by
  refine invariant_of_uniform (fun L => if pos ≤ L then L + 1 else L) hs ?_
  intro i
  exact length_insertIdx_formula (s.vectors i) pos (v i)

/-- The count-insert loop preserves the lockstep invariant. -/
theorem insertCountLoop_invariant {s : Soa N α} (hs : s.Invariant)
    (pos : Nat) (v : Rec N α) (count : Nat) :
    (s.insertCountLoop pos v count).Invariant := by
  unfold Soa.insertCountLoop
  generalize List.range count = idxs
  induction idxs generalizing s with
  | nil => exact hs
  | cons j js ih => exact ih (insert1_invariant hs (pos + j) v)

/-- The sequence-insert loop preserves the lockstep invariant. -/
theorem insertListLoop_invariant {s : Soa N α} (hs : s.Invariant)
    (pos : Nat) (l : List (Rec N α)) :
    (s.insertListLoop pos l).Invariant := by
  induction l generalizing s pos with
  | nil => exact hs
  | cons v rest ih =>
    rw [Soa.insertListLoop]
    exact ih (insert1_invariant hs pos v) (pos + 1)

/-- The cleared container satisfies the lockstep invariant. -/
theorem clear_invariant (s : Soa N α) : s.clear.Invariant := by
  intro i
  rfl

/-- Every public operation with well-formed arguments preserves the
lockstep invariant. -/
theorem apply_invariant [∀ i, Inhabited (α i)] {s : Soa N α} (hs : s.Invariant)
    (op : Op N α) (hop : op.WF) : (s.apply op).Invariant := by
  cases op with
  | assignCV count v =>
    intro i
    simp [Soa.apply, Soa.assignCV, Soa.size]
  | assignList l =>
    exact insertListLoop_invariant (clear_invariant s) 0 l
  | insert1 pos v => exact insert1_invariant hs pos v
  | insertCount pos count v => exact insertCountLoop_invariant hs pos v count
  | insertList pos l => exact insertListLoop_invariant hs pos l
  | erase1 pos =>
    refine invariant_of_uniform (fun L => if pos < L then L - 1 else L) hs ?_
    intro i
    exact List.length_eraseIdx (s.vectors i) pos
  | eraseRange first last =>
    refine invariant_of_uniform (fun L => min first L + (L - last)) hs ?_
    intro i
    simp [Soa.apply, Soa.eraseRange, List.length_take, List.length_drop]
  | pushBack v =>
    refine invariant_of_uniform (fun L => L + 1) hs ?_
    intro i
    simp [Soa.apply, Soa.pushBack]
  | popBack =>
    refine invariant_of_uniform (fun L => L - 1) hs ?_
    intro i
    simp [Soa.apply, Soa.popBack]
  | resize count v =>
    refine invariant_of_uniform (fun _ => count) hs ?_
    intro i
    exact length_resizeList (s.vectors i) count (v i)
  | resizeD count =>
    refine invariant_of_uniform (fun _ => count) hs ?_
    intro i
    exact length_resizeList (s.vectors i) count default
  | clear => exact clear_invariant s
  | swapWith other => exact hop
  | setAt idx v =>
    refine invariant_of_uniform (fun L => L) hs ?_
    intro i
    simp [Soa.apply, Soa.setAt]

/-- Per-field-array view of the sequence-insert loop: each field array is
sequentially inserted into at increasing positions. -/
theorem insertListLoop_vectors (l : List (Rec N α)) :
    ∀ (s : Soa N α) (pos : Nat) (i : Fin (N + 1)),
      (s.insertListLoop pos l).vectors i
        = listInsertSeq (s.vectors i) pos (l.map fun r => r i) := by
  induction l with
  | nil =>
    intro s pos i
    rfl
  | cons v rest ih =>
    intro s pos i
    rw [Soa.insertListLoop, List.map_cons, listInsertSeq]
    exact ih _ (pos + 1) i

/-- Reading an element through the proxy, in terms of optional lookup. -/
theorem value_eq_getElem? [∀ i, Inhabited (α i)] (s : Soa N α) (idx : Nat)
    (i : Fin (N + 1)) : s.value idx i = ((s.vectors i)[idx]?).getD default := by
  rw [Soa.value, List.getD_eq_getElem?_getD]

/-! ### The claims -/

/-- C1: for every container and every sequence of public operations
(construction, assign, insert, erase, pushBack, popBack, resize, clear,
swap), after each operation returns, every field array has the same length
and that common length equals `size()`: all four construction forms
establish the lockstep invariant, and every public operation (hence every
sequence of them, by induction) preserves it. -/
theorem soa_lockstep_invariant (N : Nat) (α : Fin (N + 1) → Type)
    [∀ i, Inhabited (α i)] :
    (Soa.mkEmpty : Soa N α).Invariant ∧
    (∀ count : Nat, (Soa.mkCount count : Soa N α).Invariant) ∧
    (∀ (count : Nat) (v : Rec N α), (Soa.mkCountValue count v).Invariant) ∧
    (∀ l : List (Rec N α), (Soa.mkList l).Invariant) ∧
    (∀ s : Soa N α, s.Invariant → ∀ ops : List (Op N α),
      (∀ op ∈ ops, op.WF) → (s.applyAll ops).Invariant) := by
  refine ⟨?_, ?_, ?_, ?_, ?_⟩
  · intro i
    rfl
  · intro count i
    simp [Soa.mkCount, Soa.size]
  · intro count v i
    simp [Soa.mkCountValue, Soa.size]
  · intro l
    exact @insertListLoop_invariant N α Soa.mkEmpty (fun i => rfl) 0 l
  · intro s hs ops hops
    induction ops generalizing s with
    | nil => exact hs
    | cons op ops ih =>
      exact ih _ (apply_invariant hs op (hops op (List.mem_cons_self op ops)))
        (fun o ho => hops o (List.mem_cons_of_mem op ho))

/-- Witness for C1 at a concrete container and operation sequence. -/
theorem soa_lockstep_invariant_witness :
    (⟨fun _ => [1, 2]⟩ : Soa 1 (fun _ => Nat)).Invariant ∧
    ((⟨fun _ => [1, 2]⟩ : Soa 1 (fun _ => Nat)).applyAll
      [Op.insert1 1 (fun _ => 5), Op.pushBack (fun _ => 7), Op.erase1 0,
       Op.swapWith ⟨fun _ => [9]⟩, Op.resize 4 (fun _ => 3)]).Invariant :=
  ⟨by decide,
   (soa_lockstep_invariant 1 (fun _ => Nat)).2.2.2.2 _ (by decide) _ (by decide)⟩

/-- C2: checked access `at(i)` reports the out-of-range error exactly when
`i >= size()`; for `i < size()` it returns a proxy at index `i`; and the
container state after the call is unchanged in both cases. -/
theorem at_bounds_check (s : Soa N α) (idx : Nat) :
    ((s.atIdx idx).2.isOk = true ↔ idx < s.size) ∧
    (idx < s.size → (s.atIdx idx).2 = Except.ok idx) ∧
    (s.atIdx idx).1 = s := by
  unfold Soa.atIdx
  by_cases h : idx ≥ s.size
  · rw [if_pos h]
    refine ⟨?_, ?_, rfl⟩
    · simp [Except.isOk, Except.toBool]
      omega
    · intro hlt
      omega
  · rw [if_neg h]
    refine ⟨?_, fun _ => rfl, rfl⟩
    simp [Except.isOk, Except.toBool]
    omega

/-- Witness for C2 at a concrete container, one in-range and one
out-of-range index. -/
theorem at_bounds_check_witness :
    ((((⟨fun _ => [3, 4]⟩ : Soa 0 (fun _ => Nat)).atIdx 1).2.isOk = true ↔
        1 < (⟨fun _ => [3, 4]⟩ : Soa 0 (fun _ => Nat)).size) ∧
      (1 < (⟨fun _ => [3, 4]⟩ : Soa 0 (fun _ => Nat)).size →
        ((⟨fun _ => [3, 4]⟩ : Soa 0 (fun _ => Nat)).atIdx 1).2 = Except.ok 1) ∧
      ((⟨fun _ => [3, 4]⟩ : Soa 0 (fun _ => Nat)).atIdx 1).1
        = (⟨fun _ => [3, 4]⟩ : Soa 0 (fun _ => Nat))) ∧
    ¬(((⟨fun _ => [3, 4]⟩ : Soa 0 (fun _ => Nat)).atIdx 2).2.isOk = true) :=
  ⟨at_bounds_check _ 1,
   fun hok => by
     have h := (at_bounds_check (⟨fun _ => [3, 4]⟩ : Soa 0 (fun _ => Nat)) 2).1.mp hok
     exact absurd h (by decide)⟩

/-- C3: round-trip — assigning record `r` through the proxy at a valid
index `i` and then materializing that proxy with `value()` yields `r`. -/
theorem proxy_roundtrip [∀ i, Inhabited (α i)] (s : Soa N α)
    (hs : s.Invariant) (idx : Nat) (h : idx < s.size) (r : Rec N α) :
    (s.setAt idx r).value idx = r := by
  funext i
  have hlen : idx < (s.vectors i).length := by
    rw [hs i]
    exact h
  rw [value_eq_getElem?, Soa.setAt, List.getElem?_set_self hlen]
  rfl

/-- Witness for C3 at a concrete container, index and record. -/
theorem proxy_roundtrip_witness :
    (⟨fun _ => [1, 2, 3]⟩ : Soa 1 (fun _ => Nat)).Invariant ∧
    1 < (⟨fun _ => [1, 2, 3]⟩ : Soa 1 (fun _ => Nat)).size ∧
    ((⟨fun _ => [1, 2, 3]⟩ : Soa 1 (fun _ => Nat)).setAt 1 (fun _ => 9)).value 1
      = (fun _ => 9) :=
  ⟨by decide, by decide,
   proxy_roundtrip _ (by decide) 1 (by decide) (fun _ => 9)⟩

/-- C4: erase shift — `erase(i)` on a container of size `n` with `i < n`
yields size `n - 1`; elements before `i` are unchanged; each element at
`j >= i` in the new container equals the old element at `j + 1`; and the
returned cursor is at index `i`. -/
theorem erase_shift [∀ i, Inhabited (α i)] (s : Soa N α) (hs : s.Invariant)
    (i : Nat) (hi : i < s.size) :
    (s.erase1 i).1.size = s.size - 1 ∧
    (∀ j, j < i → (s.erase1 i).1.value j = s.value j) ∧
    (∀ j, i ≤ j → j + 1 < s.size → (s.erase1 i).1.value j = s.value (j + 1)) ∧
    (s.erase1 i).2 = i := by
  refine ⟨?_, ?_, ?_, rfl⟩
  · show ((s.vectors 0).eraseIdx i).length = s.size - 1
    rw [List.length_eraseIdx, if_pos (show i < (s.vectors 0).length from hi)]
    rfl
  · intro j hj
    funext k
    rw [value_eq_getElem?, value_eq_getElem?]
    show (((s.vectors k).eraseIdx i)[j]?).getD default = _
    rw [List.getElem?_eraseIdx, if_pos hj]
  · intro j hij _
    funext k
    rw [value_eq_getElem?, value_eq_getElem?]
    show (((s.vectors k).eraseIdx i)[j]?).getD default = _
    rw [List.getElem?_eraseIdx, if_neg (by omega)]

/-- Witness for C4 at a concrete container and index. -/
theorem erase_shift_witness :
    (⟨fun _ => [10, 20, 30]⟩ : Soa 1 (fun _ => Nat)).Invariant ∧
    1 < (⟨fun _ => [10, 20, 30]⟩ : Soa 1 (fun _ => Nat)).size ∧
    (((⟨fun _ => [10, 20, 30]⟩ : Soa 1 (fun _ => Nat)).erase1 1).1.size
      = (⟨fun _ => [10, 20, 30]⟩ : Soa 1 (fun _ => Nat)).size - 1 ∧
    (∀ j, j < 1 →
      ((⟨fun _ => [10, 20, 30]⟩ : Soa 1 (fun _ => Nat)).erase1 1).1.value j
        = (⟨fun _ => [10, 20, 30]⟩ : Soa 1 (fun _ => Nat)).value j) ∧
    (∀ j, 1 ≤ j → j + 1 < (⟨fun _ => [10, 20, 30]⟩ : Soa 1 (fun _ => Nat)).size →
      ((⟨fun _ => [10, 20, 30]⟩ : Soa 1 (fun _ => Nat)).erase1 1).1.value j
        = (⟨fun _ => [10, 20, 30]⟩ : Soa 1 (fun _ => Nat)).value (j + 1)) ∧
    ((⟨fun _ => [10, 20, 30]⟩ : Soa 1 (fun _ => Nat)).erase1 1).2 = 1) :=
  ⟨by decide, by decide, erase_shift _ (by decide) 1 (by decide)⟩

/-- C7: whole-store swap — after `a.swap(b)`, container `a` has the old size and
old elements of `b` index-for-index, and symmetrically for `b`. -/
theorem swap_whole_store [∀ i, Inhabited (α i)] (a b : Soa N α) :
    (a.swap b).1.size = b.size ∧
    (∀ j, j < b.size → (a.swap b).1.value j = b.value j) ∧
    (a.swap b).2.size = a.size ∧
    (∀ j, j < a.size → (a.swap b).2.value j = a.value j) :=
  ⟨rfl, fun _ _ => rfl, rfl, fun _ _ => rfl⟩

/-- Witness for C7 at two concrete containers. -/
theorem swap_whole_store_witness :
    ((⟨fun _ => [1]⟩ : Soa 1 (fun _ => Nat)).swap ⟨fun _ => [7, 8]⟩).1.size
      = (⟨fun _ => [7, 8]⟩ : Soa 1 (fun _ => Nat)).size ∧
    (∀ j, j < (⟨fun _ => [7, 8]⟩ : Soa 1 (fun _ => Nat)).size →
      ((⟨fun _ => [1]⟩ : Soa 1 (fun _ => Nat)).swap ⟨fun _ => [7, 8]⟩).1.value j
        = (⟨fun _ => [7, 8]⟩ : Soa 1 (fun _ => Nat)).value j) ∧
    ((⟨fun _ => [1]⟩ : Soa 1 (fun _ => Nat)).swap ⟨fun _ => [7, 8]⟩).2.size
      = (⟨fun _ => [1]⟩ : Soa 1 (fun _ => Nat)).size ∧
    (∀ j, j < (⟨fun _ => [1]⟩ : Soa 1 (fun _ => Nat)).size →
      ((⟨fun _ => [1]⟩ : Soa 1 (fun _ => Nat)).swap ⟨fun _ => [7, 8]⟩).2.value j
        = (⟨fun _ => [1]⟩ : Soa 1 (fun _ => Nat)).value j) :=
  swap_whole_store ⟨fun _ => [1]⟩ ⟨fun _ => [7, 8]⟩

/-- C8: move leaves the source logically empty (size 0) and the
destination holds exactly the elements the source held before the move. -/
theorem move_leaves_source_empty [∀ i, Inhabited (α i)] (a : Soa N α) :
    a.moveFrom.2.size = 0 ∧
    a.moveFrom.1.size = a.size ∧
    (∀ j, j < a.size → a.moveFrom.1.value j = a.value j) :=
  ⟨rfl, rfl, fun _ _ => rfl⟩

/-- Witness for C8 at a concrete container. -/
theorem move_leaves_source_empty_witness :
    (⟨fun _ => [4, 5]⟩ : Soa 1 (fun _ => Nat)).moveFrom.2.size = 0 ∧
    (⟨fun _ => [4, 5]⟩ : Soa 1 (fun _ => Nat)).moveFrom.1.size
      = (⟨fun _ => [4, 5]⟩ : Soa 1 (fun _ => Nat)).size ∧
    (∀ j, j < (⟨fun _ => [4, 5]⟩ : Soa 1 (fun _ => Nat)).size →
      (⟨fun _ => [4, 5]⟩ : Soa 1 (fun _ => Nat)).moveFrom.1.value j
        = (⟨fun _ => [4, 5]⟩ : Soa 1 (fun _ => Nat)).value j) :=
  move_leaves_source_empty ⟨fun _ => [4, 5]⟩

/-- C9: identity fast path of proxy equality — for every proxy `w` and
every record-equality predicate `eqT` (in particular non-reflexive ones,
so no field data can be contributing), `w == w` is `true`. -/
theorem proxy_identity_fast_path [∀ i, Inhabited (α i)]
    (eqT : Rec N α → Rec N α → Bool) (w : Wrapper N α) :
    w.beq eqT w = true := by
  unfold Wrapper.beq
  rw [if_pos ⟨rfl, rfl⟩]

/-- C10: frame property of proxy assignment — writing record `r` through
the proxy at a valid index `i` leaves the size unchanged and every element
at an index `j ≠ i` unchanged. -/
theorem proxy_assign_frame [∀ i, Inhabited (α i)] (s : Soa N α)
    (hs : s.Invariant) (idx : Nat) (h : idx < s.size) (r : Rec N α) :
    (s.setAt idx r).size = s.size ∧
    (∀ j, j ≠ idx → (s.setAt idx r).value j = s.value j) := by
  refine ⟨?_, ?_⟩
  · show ((s.vectors 0).set idx (r 0)).length = s.size
    rw [List.length_set]
    rfl
  · intro j hj
    funext k
    rw [value_eq_getElem?, value_eq_getElem?]
    show (((s.vectors k).set idx (r k))[j]?).getD default = _
    rw [List.getElem?_set_ne (fun he => hj he.symm)]

/-- Witness for C10 at a concrete container, index and record. -/
theorem proxy_assign_frame_witness :
    (⟨fun _ => [1, 2, 3]⟩ : Soa 0 (fun _ => Nat)).Invariant ∧
    1 < (⟨fun _ => [1, 2, 3]⟩ : Soa 0 (fun _ => Nat)).size ∧
    (((⟨fun _ => [1, 2, 3]⟩ : Soa 0 (fun _ => Nat)).setAt 1 (fun _ => 9)).size
      = (⟨fun _ => [1, 2, 3]⟩ : Soa 0 (fun _ => Nat)).size ∧
    (∀ j, j ≠ 1 →
      ((⟨fun _ => [1, 2, 3]⟩ : Soa 0 (fun _ => Nat)).setAt 1 (fun _ => 9)).value j
        = (⟨fun _ => [1, 2, 3]⟩ : Soa 0 (fun _ => Nat)).value j)) :=
  ⟨by decide, by decide,
   proxy_assign_frame _ (by decide) 1 (by decide) (fun _ => 9)⟩

/-- C5: order preservation of sequence insert — `insert(pos, [r1..rk])`
grows the size by `k`, places the records at indices `[pos, pos + k)` in
their original relative order, leaves elements before `pos` unchanged,
shifts elements formerly at or after `pos` by `k`, and returns a cursor at
the original `pos`. -/
theorem insert_seq_order [∀ i, Inhabited (α i)] (s : Soa N α)
    (hs : s.Invariant) (pos : Nat) (hpos : pos ≤ s.size) (l : List (Rec N α)) :
    (s.insertList pos l).1.size = s.size + l.length ∧
    (∀ k (hk : k < l.length), (s.insertList pos l).1.value (pos + k) = l[k]) ∧
    (∀ j, j < pos → (s.insertList pos l).1.value j = s.value j) ∧
    (∀ j, pos ≤ j → j < s.size →
      (s.insertList pos l).1.value (j + l.length) = s.value j) ∧
    (s.insertList pos l).2 = pos := by
  have hvec : ∀ i, (s.insertList pos l).1.vectors i
      = (s.vectors i).take pos ++ (l.map fun r => r i) ++ (s.vectors i).drop pos := by
    intro i
    rw [show (s.insertList pos l).1 = s.insertListLoop pos l from rfl,
      insertListLoop_vectors l s pos i,
      listInsertSeq_eq_splice _ _ _ (by rw [hs i]; exact hpos)]
  have hget : ∀ (i : Fin (N + 1)) (n : Nat),
      ((s.insertList pos l).1.vectors i)[n]? =
        if n < pos then (s.vectors i)[n]?
        else if n < pos + l.length then (l.map fun r => r i)[n - pos]?
        else (s.vectors i)[n - l.length]? := by
    intro i n
    rw [hvec i, getElem?_splice _ _ _ (by rw [hs i]; exact hpos) n]
    rw [List.length_map]
  refine ⟨?_, ?_, ?_, ?_, rfl⟩
  · show ((s.insertList pos l).1.vectors 0).length = s.size + l.length
    rw [hvec 0]
    have hL : pos ≤ (s.vectors 0).length := hpos
    simp only [List.length_append, List.length_take, List.length_drop,
      List.length_map]
    show min pos (s.vectors 0).length + l.length + ((s.vectors 0).length - pos)
      = (s.vectors 0).length + l.length
    omega
  · intro k hk
    funext i
    rw [value_eq_getElem?, hget i (pos + k), if_neg (by omega),
      if_pos (by omega), show pos + k - pos = k from by omega,
      List.getElem?_map, List.getElem?_eq_getElem hk]
    rfl
  · intro j hj
    funext i
    rw [value_eq_getElem?, value_eq_getElem?, hget i j, if_pos hj]
  · intro j hjpos _
    funext i
    rw [value_eq_getElem?, value_eq_getElem?, hget i (j + l.length),
      if_neg (by omega), if_neg (by omega),
      show j + l.length - l.length = j from by omega]

/-- Witness for C5 at a concrete container, position and record list. -/
theorem insert_seq_order_witness :
    (⟨fun _ => [1, 2]⟩ : Soa 1 (fun _ => Nat)).Invariant ∧
    1 ≤ (⟨fun _ => [1, 2]⟩ : Soa 1 (fun _ => Nat)).size ∧
    (((⟨fun _ => [1, 2]⟩ : Soa 1 (fun _ => Nat)).insertList 1
        [fun _ => 8, fun _ => 9]).1.size
      = (⟨fun _ => [1, 2]⟩ : Soa 1 (fun _ => Nat)).size + 2 ∧
    (∀ k (hk : k < ([fun _ => 8, fun _ => 9] : List (Rec 1 (fun _ => Nat))).length),
      ((⟨fun _ => [1, 2]⟩ : Soa 1 (fun _ => Nat)).insertList 1
        [fun _ => 8, fun _ => 9]).1.value (1 + k)
        = ([fun _ => 8, fun _ => 9] : List (Rec 1 (fun _ => Nat)))[k]) ∧
    (∀ j, j < 1 →
      ((⟨fun _ => [1, 2]⟩ : Soa 1 (fun _ => Nat)).insertList 1
        [fun _ => 8, fun _ => 9]).1.value j
        = (⟨fun _ => [1, 2]⟩ : Soa 1 (fun _ => Nat)).value j) ∧
    (∀ j, 1 ≤ j → j < (⟨fun _ => [1, 2]⟩ : Soa 1 (fun _ => Nat)).size →
      ((⟨fun _ => [1, 2]⟩ : Soa 1 (fun _ => Nat)).insertList 1
        [fun _ => 8, fun _ => 9]).1.value (j + 2)
        = (⟨fun _ => [1, 2]⟩ : Soa 1 (fun _ => Nat)).value j) ∧
    ((⟨fun _ => [1, 2]⟩ : Soa 1 (fun _ => Nat)).insertList 1
        [fun _ => 8, fun _ => 9]).2 = 1) :=
  ⟨by decide, by decide,
   insert_seq_order _ (by decide) 1 (by decide) [fun _ => 8, fun _ => 9]⟩

/-- Spec-side reference definition for C6, following the words of the spec:
the state produced by `count` sequential single-element inserts of `value`
at the increasing positions `pos`, `pos + 1`, ... -/
def Soa.seqInsertsSpec (s : Soa N α) (pos : Nat) (v : Rec N α) : Nat → Soa N α
  | 0 => s
  | count + 1 => Soa.seqInsertsSpec ((s.insert1 pos v).1) (pos + 1) v count

/-- C6: `insert(pos, count, value)` leaves the container in exactly the
state produced by `count` sequential single-element inserts of `value` at
increasing positions `pos`, `pos + 1`, ..., and returns a cursor at `pos`.
(Proved for every position, in particular every valid `pos ≤ size()`.) -/
theorem insertCount_eq_sequential (s : Soa N α) (pos count : Nat) (v : Rec N α) :
    (s.insertCount pos count v).1 = s.seqInsertsSpec pos v count ∧
    (s.insertCount pos count v).2 = pos := by
  refine ⟨?_, rfl⟩
  show s.insertCountLoop pos v count = s.seqInsertsSpec pos v count
  induction count generalizing s pos with
  | zero => rfl
  | succ n ih =>
    rw [Soa.seqInsertsSpec, Soa.insertCountLoop, List.range_succ_eq_map,
      List.foldl_cons, List.foldl_map]
    have harg : (s.insert1 (pos + 0) v).1 = (s.insert1 pos v).1 := by
      rw [Nat.add_zero]
    rw [harg]
    have hfun : (fun (acc : Soa N α) (i : Nat) => (acc.insert1 (pos + Nat.succ i) v).1)
        = fun (acc : Soa N α) (i : Nat) => (acc.insert1 (pos + 1 + i) v).1 := by
      funext acc i
      rw [show pos + Nat.succ i = pos + 1 + i from by omega]
    rw [hfun]
    exact ih _ (pos + 1)

end SoaSpec
